import Mathlib

/-!
A shallow embedding of the `vec-map` Rust crate (`src/lib.rs`), the sparse
layout: a map `VecMap<K, V>` backed by `vec : Vec<Option<V>>` addressed
directly by the key's integer value, plus an O(1) live-entry counter `len`.
Keys (`K : Clone + Into<usize> + From<usize>`) are modelled as `Nat`;
`index(key) = key.clone().into()` is the identity and is inlined.
`Vec<Option<V>>` is modelled as `List (Option V)`; Rust's partial
`vec.get(i)` is `vec[i]?`.
-/

structure VecMap (V : Type) where
  len : Nat
  vec : List (Option V)
  deriving DecidableEq

/-- `VecMap::new()`: the empty map (`len = 0`, empty vec). -/
def VecMap.new {V : Type} : VecMap V :=
  { len := 0, vec := [] }

/-- `VecMap::with_capacity(c)`: also empty; capacity is not observable in the
model (Rust capacity only pre-reserves allocation). -/
def VecMap.with_capacity {V : Type} (_c : Nat) : VecMap V :=
  { len := 0, vec := [] }

/-- `VecMap::contains_key`:
`self.vec.get(index(key)).map_or(false, |o| o.is_some())`. -/
def VecMap.contains_key {V : Type} (m : VecMap V) (k : Nat) : Bool :=
  match m.vec[k]? with
  | some o => o.isSome
  | none => false

/-- `VecMap::ensure_index`: `self.vec.extend((self.vec.len()..=index).map(|_| None))`.
The inclusive range `len..=index` has `index + 1 - len` elements (0 when
`len > index`), which is exactly Nat-truncated subtraction. -/
def VecMap.ensure_index {V : Type} (m : VecMap V) (i : Nat) : VecMap V :=
  { m with vec := m.vec ++ List.replicate (i + 1 - m.vec.length) none }

/-- `VecMap::get`: `self.vec.get(index(key)).and_then(|v| v.as_ref())`. -/
def VecMap.get {V : Type} (m : VecMap V) (k : Nat) : Option V :=
  (m.vec[k]?).bind id

/-- `VecMap::get_mut`: `self.vec.get_mut(index(key)).and_then(|v| v.as_mut())`.
In a pure model a mutable borrow reads the same value as `get`. -/
def VecMap.get_mut {V : Type} (m : VecMap V) (k : Nat) : Option V :=
  (m.vec[k]?).bind id

/-- `VecMap::insert`: `ensure_index(i)`, then
`out = replace(unsafe { self.vec.get_unchecked_mut(i) }, Some(value))`,
then `if out.is_none() { self.len += 1 }`; returns `(out, new map)`.
The unchecked slot read is in bounds after `ensure_index` (proved below),
so it is modelled with `getD`. -/
def VecMap.insert {V : Type} (m : VecMap V) (k : Nat) (v : V) :
    Option V × VecMap V :=
  let m1 := m.ensure_index k
  let out := m1.vec.getD k none
  (out, { len := if out.isNone then m1.len + 1 else m1.len,
          vec := m1.vec.set k (some v) })

/-- `VecMap::insert` with the `get_unchecked_mut` out-of-bounds branch made
explicit: the result is `none` exactly when the unchecked access at index `k`
would be out of bounds after `ensure_index`. -/
def VecMap.insertChecked {V : Type} (m : VecMap V) (k : Nat) (v : V) :
    Option (Option V × VecMap V) :=
  let m1 := m.ensure_index k
  match m1.vec[k]? with
  | none => none
  | some out =>
      some (out, { len := if out.isNone then m1.len + 1 else m1.len,
                   vec := m1.vec.set k (some v) })

/-- `VecMap::remove`:
`out = self.vec.get_mut(index(key)).and_then(|v| v.take())`, then
`if out.is_some() { self.len -= 1 }`. `take()` clears the slot in place;
`List.set` out of range is a no-op, matching `get_mut` returning `None`
for an out-of-range index. -/
def VecMap.remove {V : Type} (m : VecMap V) (k : Nat) :
    Option V × VecMap V :=
  let out := (m.vec[k]?).bind id
  (out, { len := if out.isSome then m.len - 1 else m.len,
          vec := m.vec.set k none })

/-- The body of `VecMap::retain`'s `for_each` over
`self.vec.iter_mut().enumerate()`, returning
`(new slots, number of entries removed, entries the predicate was applied to)`.
For each slot: if `Some(v)` and `!f(index, v)`, the slot is set to `None` and
the removal count (`*len -= 1` in the source) goes up by one; `f` is applied
to exactly the `Some` slots, in order. -/
def retainGo {V : Type} (f : Nat → V → Bool) :
    Nat → List (Option V) → List (Option V) × Nat × List (Nat × V)
  | _, [] => ([], 0, [])
  | i, none :: rest =>
      let r := retainGo f (i + 1) rest
      (none :: r.1, r.2.1, r.2.2)
  | i, some v :: rest =>
      let r := retainGo f (i + 1) rest
      if f i v then (some v :: r.1, r.2.1, (i, v) :: r.2.2)
      else (none :: r.1, r.2.1 + 1, (i, v) :: r.2.2)

/-- `VecMap::retain(f)`: clears failing slots in place and decrements `len`
once per cleared slot (repeated `usize` decrements = Nat-truncated
subtraction of the total). -/
def VecMap.retain {V : Type} (m : VecMap V) (f : Nat → V → Bool) : VecMap V :=
  let r := retainGo f 0 m.vec
  { len := m.len - r.2.1, vec := r.1 }

/-- Index of the last `Some` slot:
`vec.iter().enumerate().filter(|(_, v)| v.is_some()).map(|(i, _)| i).last()`. -/
def lastSomeIdx {V : Type} : List (Option V) → Option Nat
  | [] => none
  | x :: rest =>
      match lastSomeIdx rest with
      | some i => some (i + 1)
      | none => if x.isSome then some 0 else none

/-- The recursion of `VecMap::shrink_to_fit` on the slot vector: while some
slot is `Some`, `self.vec.drain(index..)` (i.e. `take index`, removing the
last live slot itself) and recurse. Each step strictly shortens the vector
(the drained index is `< vec.len()`), so `fuel = vec.length` bounds the
recursion depth. -/
def shrinkGo {V : Type} : Nat → List (Option V) → List (Option V)
  | 0, vec => vec
  | fuel + 1, vec =>
      match lastSomeIdx vec with
      | none => vec
      | some i => shrinkGo fuel (vec.take i)

/-- `VecMap::shrink_to_fit`: the recursive drain; `len` is never touched. -/
def VecMap.shrink_to_fit {V : Type} (m : VecMap V) : VecMap V :=
  { m with vec := shrinkGo m.vec.length m.vec }

/-- The two variants of `Entry` returned by `VecMap::entry` (the borrow of the
map carried by the Rust entry is the map argument of the `OccupiedEntry`
operations below). -/
inductive EntryKind : Type
  | occupied
  | vacant
  deriving DecidableEq

/-- `VecMap::entry`: `if self.contains_key(&key) { Occupied } else { Vacant }`. -/
def VecMap.entry {V : Type} (m : VecMap V) (k : Nat) : EntryKind :=
  if m.contains_key k then EntryKind.occupied else EntryKind.vacant

/-- `OccupiedEntry::get`: `self.vec.get(&self.key).unwrap()` — the value the
`unwrap` receives. -/
def OccupiedEntry.get {V : Type} (m : VecMap V) (k : Nat) : Option V :=
  m.get k

/-- `OccupiedEntry::get_mut`: `self.vec.get_mut(&self.key).unwrap()`. -/
def OccupiedEntry.get_mut {V : Type} (m : VecMap V) (k : Nat) : Option V :=
  m.get_mut k

/-- `OccupiedEntry::into_mut`: `self.vec.get_mut(&self.key).unwrap()`. -/
def OccupiedEntry.into_mut {V : Type} (m : VecMap V) (k : Nat) : Option V :=
  m.get_mut k

/-- `OccupiedEntry::insert`: `self.vec.insert(self.key.clone(), value).unwrap()`
— the option the `unwrap` receives. -/
def OccupiedEntry.insert {V : Type} (m : VecMap V) (k : Nat) (v : V) : Option V :=
  (m.insert k v).1

/-- `OccupiedEntry::remove`: `self.vec.remove(&self.key).unwrap()`. -/
def OccupiedEntry.remove {V : Type} (m : VecMap V) (k : Nat) : Option V :=
  (m.remove k).1

/-- `OccupiedEntry::remove_entry`: `(self.key, self.vec.remove(&self.key).unwrap())`. -/
def OccupiedEntry.remove_entry {V : Type} (m : VecMap V) (k : Nat) :
    Option (Nat × V) :=
  ((m.remove k).1).map (fun v => (k, v))

/-- The live entries of a slot vector starting at absolute index `i`: each
`Some v` at absolute index `j` contributes `(j, v)`, holes are skipped. -/
def liveFrom {V : Type} : Nat → List (Option V) → List (Nat × V)
  | _, [] => []
  | i, none :: rest => liveFrom (i + 1) rest
  | i, some v :: rest => (i, v) :: liveFrom (i + 1) rest

/-- The live entries of a slot vector, in ascending index order. -/
def liveEntries {V : Type} (vec : List (Option V)) : List (Nat × V) :=
  liveFrom 0 vec

/-- The sequence compared by `PartialEq for VecMap`:
`vec.iter().enumerate().filter(|(_, v)| v.is_some())`. -/
def liveSlots {V : Type} (vec : List (Option V)) : List (Nat × Option V) :=
  vec.enum.filter (fun p => p.2.isSome)

/-- `PartialEq::eq for VecMap`: the filtered enumerated slot sequences are
compared element-wise; the index vectors themselves need not match. -/
def VecMap.eqv {V : Type} (a b : VecMap V) : Prop :=
  liveSlots a.vec = liveSlots b.vec

/-- Well-formed map states: the `len` counter equals the number of live
entries. `VecMap::new` produces a well-formed map and every operation
preserves it; every map reachable through the API is well-formed. -/
def VecMap.WF {V : Type} (m : VecMap V) : Prop :=
  m.len = (liveEntries m.vec).length

instance {V : Type} (m : VecMap V) : Decidable m.WF :=
  inferInstanceAs (Decidable (m.len = (liveEntries m.vec).length))

/-- `Iter<K, V>` (also the model of `IterMut`): the remaining part of
`vec.iter().enumerate()` plus the `len` captured at construction. -/
structure Iter (V : Type) where
  it : List (Nat × Option V)
  len : Nat
  deriving DecidableEq

/-- `VecMap::iter`: `Iter { it: self.vec.iter().enumerate(), len: self.len }`. -/
def VecMap.iter {V : Type} (m : VecMap V) : Iter V :=
  { it := m.vec.enum, len := m.len }

/-- The loop of `Iterator::next for Iter`: pop enumerated slots from the
front until a `Some` is found. -/
def nextAux {V : Type} :
    List (Nat × Option V) → Option ((Nat × V) × List (Nat × Option V))
  | [] => none
  | (i, some v) :: rest => some ((i, v), rest)
  | (_, none) :: rest => nextAux rest

/-- `Iterator::next for Iter`: `while let Some((index, opt)) = self.it.next()
{ if let Some(v) = opt { return Some((index.into(), v)) } }`. -/
def Iter.next {V : Type} (s : Iter V) : Option ((Nat × V) × Iter V) :=
  (nextAux s.it).map (fun x => (x.1, { it := x.2, len := s.len }))

/-- The loop of `DoubleEndedIterator::next_back`: pop enumerated slots from
the back until a `Some` is found; the skipped trailing holes are consumed. -/
def backAux {V : Type} :
    List (Nat × Option V) → Option ((Nat × V) × List (Nat × Option V))
  | [] => none
  | p :: rest =>
      match backAux rest with
      | some (x, rest1) => some (x, p :: rest1)
      | none =>
          match p.2 with
          | some v => some ((p.1, v), [])
          | none => none

/-- `DoubleEndedIterator::next_back for Iter`. -/
def Iter.nextBack {V : Type} (s : Iter V) : Option ((Nat × V) × Iter V) :=
  (backAux s.it).map (fun x => (x.1, { it := x.2, len := s.len }))

/-- `Iterator::size_hint for Iter`: `(self.len, Some(self.len))`; the stored
`len` is never updated by `next`/`next_back`. -/
def Iter.size_hint {V : Type} (s : Iter V) : Nat × Option Nat :=
  (s.len, some s.len)

/-- The entries still produced by an enumerated slot list (front to back). -/
def entriesOf {V : Type} (l : List (Nat × Option V)) : List (Nat × V) :=
  l.filterMap (fun p => p.2.map (fun v => (p.1, v)))

/-- Everything a forward traversal of `Iter` still yields (`next` until
`None`; proved below to satisfy exactly that recurrence). -/
def Iter.toList {V : Type} (s : Iter V) : List (Nat × V) :=
  entriesOf s.it

/-- Everything a backward traversal of `Iter` still yields (`next_back` until
`None`; proved below to satisfy exactly that recurrence). -/
def Iter.toBackList {V : Type} (s : Iter V) : List (Nat × V) :=
  (entriesOf s.it).reverse

/-- `IntoIter<K, V>`: the remaining part of `vec.into_iter().enumerate()`
plus the captured `len`; same shape as `Iter` with owned values. -/
structure IntoIter (V : Type) where
  it : List (Nat × Option V)
  len : Nat
  deriving DecidableEq

/-- `IntoIterator::into_iter for VecMap`. -/
def VecMap.intoIter {V : Type} (m : VecMap V) : IntoIter V :=
  { it := m.vec.enum, len := m.len }

/-- `Iterator::next for IntoIter` (same skipping loop as `Iter`). -/
def IntoIter.next {V : Type} (s : IntoIter V) : Option ((Nat × V) × IntoIter V) :=
  (nextAux s.it).map (fun x => (x.1, { it := x.2, len := s.len }))

/-- `DoubleEndedIterator::next_back for IntoIter`. -/
def IntoIter.nextBack {V : Type} (s : IntoIter V) :
    Option ((Nat × V) × IntoIter V) :=
  (backAux s.it).map (fun x => (x.1, { it := x.2, len := s.len }))

/-- `Iterator::size_hint for IntoIter`: `(self.len, Some(self.len))`. -/
def IntoIter.size_hint {V : Type} (s : IntoIter V) : Nat × Option Nat :=
  (s.len, some s.len)

/-- Everything a forward traversal of `IntoIter` still yields. -/
def IntoIter.toList {V : Type} (s : IntoIter V) : List (Nat × V) :=
  entriesOf s.it

/-- Everything a backward traversal of `IntoIter` still yields. -/
def IntoIter.toBackList {V : Type} (s : IntoIter V) : List (Nat × V) :=
  (entriesOf s.it).reverse

/-- `IterMut<K, V>`: in a pure model a mutable slot borrow reads like a shared
one, so the structure mirrors `Iter`. -/
structure IterMut (V : Type) where
  it : List (Nat × Option V)
  len : Nat
  deriving DecidableEq

/-- `VecMap::iter_mut`. -/
def VecMap.iterMut {V : Type} (m : VecMap V) : IterMut V :=
  { it := m.vec.enum, len := m.len }

/-- `Iterator::size_hint for IterMut`: `(self.len, Some(self.len))`. -/
def IterMut.size_hint {V : Type} (s : IterMut V) : Nat × Option Nat :=
  (s.len, some s.len)

/-- Everything a forward traversal of `IterMut` still yields. -/
def IterMut.toList {V : Type} (s : IterMut V) : List (Nat × V) :=
  entriesOf s.it

/-- `Keys<K, V>(Iter)`. -/
structure Keys (V : Type) where
  toIter : Iter V

/-- `VecMap::keys`: `Keys(self.iter())`. -/
def VecMap.keys {V : Type} (m : VecMap V) : Keys V :=
  { toIter := m.iter }

/-- `Iterator::next for Keys`: `self.0.next().map(|(k, _)| k)`. -/
def Keys.next {V : Type} (s : Keys V) : Option (Nat × Keys V) :=
  (s.toIter.next).map (fun x => (x.1.1, { toIter := x.2 }))

/-- `size_hint for Keys`: `self.0.size_hint()`. -/
def Keys.size_hint {V : Type} (s : Keys V) : Nat × Option Nat :=
  s.toIter.size_hint

/-- Everything a forward traversal of `Keys` still yields. -/
def Keys.toList {V : Type} (s : Keys V) : List Nat :=
  (s.toIter.toList).map Prod.fst

/-- Everything a backward traversal of `Keys` still yields. -/
def Keys.toBackList {V : Type} (s : Keys V) : List Nat :=
  (s.toIter.toBackList).map Prod.fst

/-- `Values<K, V>(Iter)`. -/
structure Values (V : Type) where
  toIter : Iter V

/-- `VecMap::values`: `Values(self.iter())`. -/
def VecMap.values {V : Type} (m : VecMap V) : Values V :=
  { toIter := m.iter }

/-- `Iterator::next for Values`: `self.0.next().map(|(_, v)| v)`. -/
def Values.next {V : Type} (s : Values V) : Option (V × Values V) :=
  (s.toIter.next).map (fun x => (x.1.2, { toIter := x.2 }))

/-- `size_hint for Values`: `self.0.size_hint()`. -/
def Values.size_hint {V : Type} (s : Values V) : Nat × Option Nat :=
  s.toIter.size_hint

/-- Everything a forward traversal of `Values` still yields. -/
def Values.toList {V : Type} (s : Values V) : List V :=
  (s.toIter.toList).map Prod.snd

/-- Everything a backward traversal of `Values` still yields. -/
def Values.toBackList {V : Type} (s : Values V) : List V :=
  (s.toIter.toBackList).map Prod.snd

/-- `ValuesMut<K, V>(IterMut)`. -/
structure ValuesMut (V : Type) where
  toIterMut : IterMut V

/-- `VecMap::values_mut`. -/
def VecMap.valuesMut {V : Type} (m : VecMap V) : ValuesMut V :=
  { toIterMut := m.iterMut }

/-- `size_hint for ValuesMut`: `self.0.size_hint()`. -/
def ValuesMut.size_hint {V : Type} (s : ValuesMut V) : Nat × Option Nat :=
  s.toIterMut.size_hint

/-- Everything a forward traversal of `ValuesMut` still yields. -/
def ValuesMut.toList {V : Type} (s : ValuesMut V) : List V :=
  (s.toIterMut.toList).map Prod.snd

/-- One operation of the insert/remove sequences of the bijection property. -/
inductive Op (V : Type) : Type
  | insert (k : Nat) (v : V)
  | remove (k : Nat)

/-- Apply one operation to a map state. -/
def Op.apply {V : Type} (m : VecMap V) : Op V → VecMap V
  | Op.insert k v => (m.insert k v).2
  | Op.remove k => (m.remove k).2

/-- Run a sequence of operations from the empty map. -/
def applyOps {V : Type} (l : List (Op V)) : VecMap V :=
  l.foldl Op.apply VecMap.new

/-- Whether an operation touches the key `k`. -/
def Op.touches {V : Type} (k : Nat) : Op V → Bool
  | Op.insert j _ => j == k
  | Op.remove j => j == k

/-- Whether an operation is an insertion. -/
def Op.isInsert {V : Type} : Op V → Bool
  | Op.insert _ _ => true
  | Op.remove _ => false

/-- The specification side of the bijection property, in the claim's words:
`k` is contained iff some insert of `k` occurred and no remove of `k` occurred
after the most recent insert of `k` — i.e. the most recent operation touching
`k` is an insert. -/
def specContains {V : Type} (l : List (Op V)) (k : Nat) : Bool :=
  match l.reverse.find? (Op.touches k) with
  | some op => op.isInsert
  | none => false

/-- `FromIterator for VecMap`: fold `insert` over the pairs, starting from
`with_capacity(iter.size_hint().0)` (for a list, the exact length). -/
def VecMap.fromList {V : Type} (l : List (Nat × V)) : VecMap V :=
  l.foldl (fun acc p => (acc.insert p.1 p.2).2) (VecMap.with_capacity l.length)

/-- The concrete scenario map: keys `29, 28, ..., 0` inserted in that order,
each with value equal to the key. -/
def scenario30 : VecMap Nat :=
  ((List.range 30).reverse).foldl (fun m n => (m.insert n n).2) VecMap.new

/-- The concrete retain scenario map: `(1, 10)` then `(2, 11)` inserted. -/
def scenarioRetain : VecMap Nat :=
  ((VecMap.new.insert 1 10).2.insert 2 11).2

/-! ## Basic lemmas about the embedded operations -/

theorem Option.bind_id_eq_getD {V : Type} (o : Option (Option V)) :
    o.bind id = o.getD none := by
  cases o <;> rfl

theorem VecMap.eq_of_parts {V : Type} {a b : VecMap V}
    (h1 : a.len = b.len) (h2 : a.vec = b.vec) : a = b := by
  cases a
  cases b
  simp only at h1 h2
  rw [h1, h2]

theorem List.find?_append_eq {α : Type} (p : α → Bool) (l₁ l₂ : List α) :
    (l₁ ++ l₂).find? p =
      (match l₁.find? p with
       | some x => some x
       | none => l₂.find? p) := by
  induction l₁ with
  | nil => simp
  | cons a t ih =>
      by_cases h : p a
      · simp [List.find?, h]
      · simp only [List.cons_append, List.find?, h]
        exact ih

theorem VecMap.get_eq_some_iff {V : Type} (m : VecMap V) (k : Nat) (v : V) :
    m.get k = some v ↔ m.vec[k]? = some (some v) := by
  unfold VecMap.get
  cases h : m.vec[k]? with
  | none => simp
  | some o => cases o <;> simp

theorem VecMap.contains_eq_isSome {V : Type} (m : VecMap V) (k : Nat) :
    m.contains_key k = (m.get k).isSome := by
  unfold VecMap.contains_key VecMap.get
  cases h : m.vec[k]? with
  | none => rfl
  | some o => cases o <;> rfl

theorem VecMap.ensure_len {V : Type} (m : VecMap V) (i : Nat) :
    (m.ensure_index i).len = m.len := rfl

theorem VecMap.ensure_length {V : Type} (m : VecMap V) (i : Nat) :
    (m.ensure_index i).vec.length = max m.vec.length (i + 1) := by
  simp only [VecMap.ensure_index, List.length_append, List.length_replicate]
  omega

theorem VecMap.ensure_getElem_lt {V : Type} (m : VecMap V) (i k : Nat)
    (h : k < m.vec.length) : (m.ensure_index i).vec[k]? = m.vec[k]? := by
  simp only [VecMap.ensure_index]
  exact List.getElem?_append_left h

theorem VecMap.get_ensure {V : Type} (m : VecMap V) (i k : Nat) :
    ((m.ensure_index i).vec[k]?).bind id = (m.vec[k]?).bind id := by
  by_cases h : k < m.vec.length
  · rw [VecMap.ensure_getElem_lt m i k h]
  · push_neg at h
    rw [List.getElem?_eq_none_iff.mpr h]
    by_cases h2 : k < (m.ensure_index i).vec.length
    · have h3 : k - m.vec.length < i + 1 - m.vec.length := by
        rw [VecMap.ensure_length] at h2
        omega
      simp only [VecMap.ensure_index] at h2 ⊢
      rw [List.getElem?_append_right h, List.getElem?_replicate_of_lt h3]
      rfl
    · push_neg at h2
      rw [List.getElem?_eq_none_iff.mpr h2]

theorem VecMap.ensure_getElem_self {V : Type} (m : VecMap V) (k : Nat) :
    (m.ensure_index k).vec[k]? = some ((m.vec[k]?).getD none) := by
  by_cases h : k < m.vec.length
  · rw [VecMap.ensure_getElem_lt m k k h, List.getElem?_eq_getElem h]
    rfl
  · push_neg at h
    have h3 : k - m.vec.length < k + 1 - m.vec.length := by omega
    simp only [VecMap.ensure_index]
    rw [List.getElem?_append_right h, List.getElem?_replicate_of_lt h3,
      List.getElem?_eq_none_iff.mpr h]
    rfl

theorem VecMap.insert_fst {V : Type} (m : VecMap V) (k : Nat) (v : V) :
    (m.insert k v).1 = m.get k := by
  show (m.ensure_index k).vec.getD k none = m.get k
  rw [List.getD_eq_getElem?_getD, VecMap.ensure_getElem_self]
  unfold VecMap.get
  rw [Option.bind_id_eq_getD]
  rfl

theorem VecMap.insert_self_lt_length {V : Type} (m : VecMap V) (k : Nat) :
    k < (m.ensure_index k).vec.length := by
  rw [VecMap.ensure_length]
  omega

theorem VecMap.get_insert {V : Type} (m : VecMap V) (k : Nat) (v : V) (j : Nat) :
    ((m.insert k v).2).get j = if j = k then some v else m.get j := by
  by_cases h : j = k
  · subst h
    show (((m.ensure_index j).vec.set j (some v))[j]?).bind id = _
    rw [List.getElem?_set_self (VecMap.insert_self_lt_length m j)]
    simp
  · show (((m.ensure_index k).vec.set k (some v))[j]?).bind id = _
    rw [List.getElem?_set_ne (fun hkj => h hkj.symm), VecMap.get_ensure]
    simp [h, VecMap.get]

theorem VecMap.len_insert {V : Type} (m : VecMap V) (k : Nat) (v : V) :
    ((m.insert k v).2).len = if (m.get k).isSome then m.len else m.len + 1 := by
  show (if ((m.ensure_index k).vec.getD k none).isNone then m.len + 1 else m.len) = _
  have h : (m.ensure_index k).vec.getD k none = m.get k := VecMap.insert_fst m k v
  rw [h]
  cases m.get k <;> rfl

theorem VecMap.remove_fst {V : Type} (m : VecMap V) (k : Nat) :
    (m.remove k).1 = m.get k := rfl

theorem VecMap.get_remove {V : Type} (m : VecMap V) (k j : Nat) :
    ((m.remove k).2).get j = if j = k then none else m.get j := by
  by_cases h : j = k
  · subst h
    show ((m.vec.set j none)[j]?).bind id = _
    by_cases h2 : j < m.vec.length
    · rw [List.getElem?_set_self h2]
      simp
    · push_neg at h2
      rw [List.set_eq_of_length_le h2, List.getElem?_eq_none_iff.mpr h2]
      simp
  · show ((m.vec.set k none)[j]?).bind id = _
    rw [List.getElem?_set_ne (fun hkj => h hkj.symm)]
    simp [h, VecMap.get]

theorem VecMap.len_remove {V : Type} (m : VecMap V) (k : Nat) :
    ((m.remove k).2).len = if (m.get k).isSome then m.len - 1 else m.len := rfl

/-! ## Lemmas about live entries and the iterators -/

theorem liveFrom_ge {V : Type} :
    ∀ (vec : List (Option V)) (i : Nat) (p : Nat × V),
      p ∈ liveFrom i vec → i ≤ p.1 := by
  intro vec
  induction vec with
  | nil => intro i p h; simp [liveFrom] at h
  | cons a rest ih =>
      intro i p h
      cases a with
      | none =>
          have := ih (i + 1) p (by simpa [liveFrom] using h)
          omega
      | some v =>
          simp only [liveFrom, List.mem_cons] at h
          cases h with
          | inl h => subst h; exact le_refl _
          | inr h =>
              have := ih (i + 1) p h
              omega

theorem liveFrom_chain {V : Type} :
    ∀ (vec : List (Option V)) (i : Nat),
      List.Chain' (fun a b : Nat × V => a.1 < b.1) (liveFrom i vec) := by
  intro vec
  induction vec with
  | nil => intro i; simp [liveFrom]
  | cons a rest ih =>
      intro i
      cases a with
      | none => simpa [liveFrom] using ih (i + 1)
      | some v =>
          simp only [liveFrom]
          rw [List.chain'_cons']
          refine ⟨?_, ih (i + 1)⟩
          intro p hp
          have hmem : p ∈ liveFrom (i + 1) rest := List.mem_of_mem_head? hp
          have := liveFrom_ge rest (i + 1) p hmem
          omega

theorem mem_liveFrom {V : Type} :
    ∀ (vec : List (Option V)) (i k : Nat) (v : V),
      (k, v) ∈ liveFrom i vec ↔ ∃ d, k = i + d ∧ vec[d]? = some (some v) := by
  intro vec
  induction vec with
  | nil => intro i k v; simp [liveFrom]
  | cons a rest ih =>
      intro i k v
      cases a with
      | none =>
          simp only [liveFrom]
          rw [ih (i + 1) k v]
          constructor
          · rintro ⟨d, hk, hd⟩
            exact ⟨d + 1, by omega, by simpa using hd⟩
          · rintro ⟨d, hk, hd⟩
            cases d with
            | zero => simp at hd
            | succ d => exact ⟨d, by omega, by simpa using hd⟩
      | some w =>
          simp only [liveFrom, List.mem_cons]
          rw [ih (i + 1) k v]
          constructor
          · rintro (h | ⟨d, hk, hd⟩)
            · injection h with hk hv
              exact ⟨0, by omega, by simp [hv]⟩
            · exact ⟨d + 1, by omega, by simpa using hd⟩
          · rintro ⟨d, hk, hd⟩
            cases d with
            | zero =>
                simp only [List.getElem?_cons_zero, Option.some.injEq] at hd
                left
                simp [hk, hd]
            | succ d =>
                right
                exact ⟨d, by omega, by simpa using hd⟩

theorem mem_liveEntries_iff_get {V : Type} (m : VecMap V) (k : Nat) (v : V) :
    (k, v) ∈ liveEntries m.vec ↔ m.get k = some v := by
  rw [liveEntries, mem_liveFrom, VecMap.get_eq_some_iff]
  constructor
  · rintro ⟨d, hk, hd⟩
    subst hk
    simpa using hd
  · intro h
    exact ⟨k, by omega, by simpa using h⟩

theorem entriesOf_cons_none {V : Type} (i : Nat) (rest : List (Nat × Option V)) :
    entriesOf ((i, (none : Option V)) :: rest) = entriesOf rest := rfl

theorem entriesOf_cons_some {V : Type} (i : Nat) (v : V)
    (rest : List (Nat × Option V)) :
    entriesOf ((i, some v) :: rest) = (i, v) :: entriesOf rest := rfl

theorem entriesOf_enumFrom {V : Type} :
    ∀ (vec : List (Option V)) (i : Nat),
      entriesOf (List.enumFrom i vec) = liveFrom i vec := by
  intro vec
  induction vec with
  | nil => intro i; rfl
  | cons a rest ih =>
      intro i
      cases a with
      | none =>
          show entriesOf ((i, none) :: List.enumFrom (i + 1) rest)
            = liveFrom (i + 1) rest
          rw [entriesOf_cons_none]
          exact ih (i + 1)
      | some v =>
          show entriesOf ((i, some v) :: List.enumFrom (i + 1) rest)
            = (i, v) :: liveFrom (i + 1) rest
          rw [entriesOf_cons_some, ih (i + 1)]

theorem liveSlots_eq_map {V : Type} :
    ∀ (vec : List (Option V)) (i : Nat),
      (List.enumFrom i vec).filter (fun p => p.2.isSome)
        = (liveFrom i vec).map (fun p => (p.1, some p.2)) := by
  intro vec
  induction vec with
  | nil => intro i; rfl
  | cons a rest ih =>
      intro i
      cases a with
      | none =>
          show ((i, (none : Option V)) :: List.enumFrom (i + 1) rest).filter
              (fun p => p.2.isSome) = _
          rw [List.filter_cons]
          simpa using ih (i + 1)
      | some v =>
          show ((i, some v) :: List.enumFrom (i + 1) rest).filter
              (fun p => p.2.isSome)
            = (i, some v) :: (liveFrom (i + 1) rest).map (fun p => (p.1, some p.2))
          rw [List.filter_cons]
          simpa using ih (i + 1)

theorem liveSlots_eq {V : Type} (vec : List (Option V)) :
    liveSlots vec = (liveEntries vec).map (fun p => (p.1, some p.2)) := by
  rw [liveSlots, liveEntries, List.enum_eq_enumFrom]
  exact liveSlots_eq_map vec 0

theorem nextAux_none {V : Type} :
    ∀ (l : List (Nat × Option V)), nextAux l = none → entriesOf l = [] := by
  intro l
  induction l with
  | nil => intro _; rfl
  | cons a rest ih =>
      obtain ⟨i, o⟩ := a
      cases o with
      | none =>
          intro h
          rw [entriesOf_cons_none]
          exact ih (by simpa [nextAux] using h)
      | some v =>
          intro h
          simp [nextAux] at h

theorem nextAux_some {V : Type} :
    ∀ (l : List (Nat × Option V)) (p : Nat × V) (rest1 : List (Nat × Option V)),
      nextAux l = some (p, rest1) → entriesOf l = p :: entriesOf rest1 := by
  intro l
  induction l with
  | nil => intro p rest1 h; simp [nextAux] at h
  | cons a rest ih =>
      obtain ⟨i, o⟩ := a
      cases o with
      | none =>
          intro p rest1 h
          rw [entriesOf_cons_none]
          exact ih p rest1 (by simpa [nextAux] using h)
      | some v =>
          intro p rest1 h
          simp only [nextAux, Option.some.injEq] at h
          injection h with h1 h2
          rw [entriesOf_cons_some, h1, h2]

theorem backAux_none {V : Type} :
    ∀ (l : List (Nat × Option V)), backAux l = none → entriesOf l = [] := by
  intro l
  induction l with
  | nil => intro _; rfl
  | cons a rest ih =>
      obtain ⟨i, o⟩ := a
      intro h
      cases hr : backAux rest with
      | some x =>
          exfalso
          simp only [backAux, hr] at h
          exact Option.noConfusion h
      | none =>
          cases o with
          | none =>
              rw [entriesOf_cons_none]
              exact ih hr
          | some v =>
              exfalso
              simp only [backAux, hr] at h
              exact Option.noConfusion h

theorem backAux_some {V : Type} :
    ∀ (l : List (Nat × Option V)) (p : Nat × V) (rest1 : List (Nat × Option V)),
      backAux l = some (p, rest1) →
        (entriesOf l).reverse = p :: (entriesOf rest1).reverse := by
  intro l
  induction l with
  | nil => intro p rest1 h; simp [backAux] at h
  | cons a rest ih =>
      obtain ⟨i, o⟩ := a
      intro p rest1 h
      cases hr : backAux rest with
      | some x =>
          obtain ⟨q, r1⟩ := x
          have hq := ih q r1 hr
          simp only [backAux, hr] at h
          injection h with h1
          injection h1 with h2 h3
          subst h2
          subst h3
          cases o with
          | none =>
              rw [entriesOf_cons_none, hq, entriesOf_cons_none]
          | some v =>
              rw [entriesOf_cons_some, List.reverse_cons, hq, entriesOf_cons_some,
                List.reverse_cons, List.cons_append]
      | none =>
          have hrest : entriesOf rest = [] := backAux_none rest hr
          cases o with
          | none =>
              exfalso
              simp only [backAux, hr] at h
              exact Option.noConfusion h
          | some v =>
              simp only [backAux, hr] at h
              injection h with h1
              injection h1 with h2 h3
              subst h2
              subst h3
              rw [entriesOf_cons_some, hrest]
              rfl

/-- A forward traversal of `Iter` is exactly `next` iterated to exhaustion:
`toList` satisfies the defining recurrence of Rust's `Iterator::next` loop. -/
theorem Iter.toList_next {V : Type} (s : Iter V) :
    s.toList =
      (match s.next with
       | none => []
       | some (p, s1) => p :: s1.toList) := by
  unfold Iter.next
  cases h : nextAux s.it with
  | none =>
      show entriesOf s.it = []
      exact nextAux_none s.it h
  | some x =>
      obtain ⟨p, rest⟩ := x
      show entriesOf s.it = p :: entriesOf rest
      exact nextAux_some s.it p rest h

/-- A backward traversal of `Iter` is exactly `next_back` iterated to
exhaustion. -/
theorem Iter.toBackList_nextBack {V : Type} (s : Iter V) :
    s.toBackList =
      (match s.nextBack with
       | none => []
       | some (p, s1) => p :: s1.toBackList) := by
  unfold Iter.nextBack
  cases h : backAux s.it with
  | none =>
      show (entriesOf s.it).reverse = []
      rw [backAux_none s.it h]
      rfl
  | some x =>
      obtain ⟨p, rest⟩ := x
      show (entriesOf s.it).reverse = p :: (entriesOf rest).reverse
      exact backAux_some s.it p rest h

/-- Same recurrence for `IntoIter`'s forward traversal. -/
theorem IntoIter.toList_via_next {V : Type} (s : IntoIter V) :
    s.toList =
      (match s.next with
       | none => []
       | some (p, s1) => p :: s1.toList) := by
  unfold IntoIter.next
  cases h : nextAux s.it with
  | none =>
      show entriesOf s.it = []
      exact nextAux_none s.it h
  | some x =>
      obtain ⟨p, rest⟩ := x
      show entriesOf s.it = p :: entriesOf rest
      exact nextAux_some s.it p rest h

/-- Same recurrence for `IntoIter`'s backward traversal. -/
theorem IntoIter.toBackList_via_nextBack {V : Type} (s : IntoIter V) :
    s.toBackList =
      (match s.nextBack with
       | none => []
       | some (p, s1) => p :: s1.toBackList) := by
  unfold IntoIter.nextBack
  cases h : backAux s.it with
  | none =>
      show (entriesOf s.it).reverse = []
      rw [backAux_none s.it h]
      rfl
  | some x =>
      obtain ⟨p, rest⟩ := x
      show (entriesOf s.it).reverse = p :: (entriesOf rest).reverse
      exact backAux_some s.it p rest h

theorem iter_toList_eq_liveEntries {V : Type} (m : VecMap V) :
    (m.iter).toList = liveEntries m.vec := by
  show entriesOf m.vec.enum = liveEntries m.vec
  rw [List.enum_eq_enumFrom, entriesOf_enumFrom]
  rfl

theorem intoIter_toList_eq_liveEntries {V : Type} (m : VecMap V) :
    (m.intoIter).toList = liveEntries m.vec := by
  show entriesOf m.vec.enum = liveEntries m.vec
  rw [List.enum_eq_enumFrom, entriesOf_enumFrom]
  rfl

theorem iterMut_toList_eq_liveEntries {V : Type} (m : VecMap V) :
    (m.iterMut).toList = liveEntries m.vec := by
  show entriesOf m.vec.enum = liveEntries m.vec
  rw [List.enum_eq_enumFrom, entriesOf_enumFrom]
  rfl

/-! ## Operation sequences -/

theorem foldl_contains {V : Type} (l : List (Op V)) :
    ∀ (m : VecMap V) (k : Nat),
      (l.foldl Op.apply m).contains_key k =
        (match l.reverse.find? (Op.touches k) with
         | some op => op.isInsert
         | none => m.contains_key k) := by
  induction l with
  | nil => intro m k; rfl
  | cons a t ih =>
      intro m k
      rw [List.foldl_cons, ih (Op.apply m a) k, List.reverse_cons,
        List.find?_append_eq]
      cases ht : t.reverse.find? (Op.touches k) with
      | some op => rfl
      | none =>
          cases a with
          | insert j v =>
              by_cases hj : j = k
              · subst hj
                simp only [List.find?, Op.touches, beq_self_eq_true]
                show ((m.insert j v).2).contains_key j = Op.isInsert (Op.insert j v)
                rw [VecMap.contains_eq_isSome, VecMap.get_insert]
                simp [Op.isInsert]
              · have hb : (Op.touches k (Op.insert j v)) = false := by
                  simp [Op.touches, hj]
                simp only [List.find?, hb]
                show ((m.insert j v).2).contains_key k = m.contains_key k
                rw [VecMap.contains_eq_isSome, VecMap.get_insert,
                  VecMap.contains_eq_isSome]
                have hkj : ¬(k = j) := fun hc => hj hc.symm
                simp [hkj]
          | remove j =>
              by_cases hj : j = k
              · subst hj
                simp only [List.find?, Op.touches, beq_self_eq_true]
                show ((m.remove j).2).contains_key j = Op.isInsert (Op.remove j)
                rw [VecMap.contains_eq_isSome, VecMap.get_remove]
                simp [Op.isInsert]
              · have hb : (Op.touches k (Op.remove j : Op V)) = false := by
                  simp [Op.touches, hj]
                simp only [List.find?, hb]
                show ((m.remove j).2).contains_key k = m.contains_key k
                rw [VecMap.contains_eq_isSome, VecMap.get_remove,
                  VecMap.contains_eq_isSome]
                have hkj : ¬(k = j) := fun hc => hj hc.symm
                simp [hkj]

/-! ## The claims -/

/-- C1 (code bug): `shrink_to_fit` is supposed to drop only the trailing
`None` slots and change no key's reachability, but `drain(index..)` starts at
the index of the last live slot (inclusive) and the recursion then deletes
every live entry: on the one-entry map `{0 ↦ 10}`, after `shrink_to_fit()`
`get(&0)` is `None`, the slot vector is empty, yet `len()` still reports 1. -/
theorem VecMap.shrink_to_fit_drops_live_entries :
    ((VecMap.new.insert 0 (10 : Nat)).2).get 0 = some 10
    ∧ ((VecMap.new.insert 0 (10 : Nat)).2).len = 1
    ∧ (((VecMap.new.insert 0 (10 : Nat)).2).shrink_to_fit).get 0 = none
    ∧ (((VecMap.new.insert 0 (10 : Nat)).2).shrink_to_fit).len = 1
    ∧ (((VecMap.new.insert 0 (10 : Nat)).2).shrink_to_fit).vec = [] := by
  decide

/-- C2: `insert` returns the previous binding (`Some(w)` when `k` was present
with value `w`, `None` when absent), leaves `len()` unchanged in the first
case and increments it by exactly one in the second, and afterwards
`get(&k) = Some(&v)`; concretely, inserting keys `29, 28, ..., 0` with value
= key gives `len() = 30` and `get(&15) = Some(15)`, and re-inserting key `15`
with value `85` returns `Some(15)`, keeps `len() = 30`, and makes
`get(&15) = Some(85)`. -/
theorem VecMap.insert_replace_spec {V : Type} (m : VecMap V) (k : Nat) (v : V) :
    (m.insert k v).1 = m.get k
    ∧ ((m.insert k v).2).get k = some v
    ∧ ((m.insert k v).2).len = (if (m.get k).isSome then m.len else m.len + 1)
    ∧ scenario30.len = 30
    ∧ scenario30.get 15 = some 15
    ∧ (scenario30.insert 15 85).1 = some 15
    ∧ ((scenario30.insert 15 85).2).len = 30
    ∧ ((scenario30.insert 15 85).2).get 15 = some 85 := by
  refine ⟨VecMap.insert_fst m k v, ?_, VecMap.len_insert m k v, ?_, ?_, ?_, ?_, ?_⟩
  · rw [VecMap.get_insert]
    simp
  all_goals decide

/-- C3: for every sequence of insert/remove operations run from the empty map
and every key `k`, `contains_key(&k)` is true iff the most recent operation
of the sequence touching `k` is an insert — i.e. some insert of `k` occurred
and no remove of `k` occurred after the most recent insert of `k`. Since the
sequence is universally quantified, this holds at every point of any longer
sequence. -/
theorem VecMap.contains_key_bijection {V : Type} (l : List (Op V)) (k : Nat) :
    (applyOps l).contains_key k = specContains l k := by
  rw [applyOps, foldl_contains l VecMap.new k, specContains]
  cases h : l.reverse.find? (Op.touches k) with
  | some op => rfl
  | none => rfl

/-- C4: absence is never a failure and removal is atomic — on a key that is
absent (in particular any key at or beyond the backing vector's length),
`get`, `get_mut` and `remove` return `None` and `remove` leaves the map
unchanged; on a present key with value `v`, `remove` returns `Some(v)`,
makes the key absent, decrements `len()` by exactly one, and leaves every
other key's `get` result unchanged. -/
theorem VecMap.absence_and_remove_spec {V : Type} (m : VecMap V) (k : Nat)
    (hwf : m.WF) :
    (m.vec.length ≤ k → m.get k = none)
    ∧ (m.get k = none → m.get_mut k = none ∧ m.remove k = (none, m))
    ∧ (∀ v, m.get k = some v →
        (m.remove k).1 = some v
        ∧ ((m.remove k).2).get k = none
        ∧ ((m.remove k).2).len + 1 = m.len
        ∧ ∀ j, j ≠ k → ((m.remove k).2).get j = m.get j) := by
  refine ⟨?_, ?_, ?_⟩
  · intro h
    unfold VecMap.get
    rw [List.getElem?_eq_none_iff.mpr h]
    rfl
  · intro h
    refine ⟨h, ?_⟩
    have hlen : ((m.remove k).2).len = m.len := by
      rw [VecMap.len_remove, h]
      rfl
    have hvec : m.vec.set k none = m.vec := by
      by_cases hk : k < m.vec.length
      · apply List.ext_getElem?
        intro n
        by_cases hn : n = k
        · subst hn
          rw [List.getElem?_set_self hk]
          unfold VecMap.get at h
          cases hslot : m.vec[n]? with
          | none => exact absurd hslot (by rw [List.getElem?_eq_none_iff]; omega)
          | some o =>
              rw [hslot] at h
              cases o with
              | none => rfl
              | some v => exact absurd h (by simp)
        · rw [List.getElem?_set_ne (fun hc => hn hc.symm)]
      · push_neg at hk
        exact List.set_eq_of_length_le hk
    have hmap : (m.remove k).2 = m :=
      VecMap.eq_of_parts hlen hvec
    show ((m.remove k).1, (m.remove k).2) = ((none : Option V), m)
    rw [VecMap.remove_fst, h, hmap]
  · intro v hv
    refine ⟨by rw [VecMap.remove_fst, hv], ?_, ?_, ?_⟩
    · rw [VecMap.get_remove]
      simp
    · have hmem : (k, v) ∈ liveEntries m.vec :=
        (mem_liveEntries_iff_get m k v).mpr hv
      have hpos : 1 ≤ (liveEntries m.vec).length :=
        List.length_pos.mpr (List.ne_nil_of_mem hmem)
      rw [VecMap.len_remove, hv]
      rw [VecMap.WF] at hwf
      simp only [Option.isSome_some, if_true]
      omega
    · intro j hj
      rw [VecMap.get_remove]
      simp [hj]

/-- Witness for C4 at the one-entry map `{0 ↦ 5}` (well-formed), removing the
present key `0` and the absent key `2`. -/
theorem VecMap.absence_and_remove_spec_witness :
    (⟨1, [some 5]⟩ : VecMap Nat).WF
    ∧ ((⟨1, [some 5]⟩ : VecMap Nat).remove 0).1 = some 5
    ∧ ((⟨1, [some 5]⟩ : VecMap Nat).remove 2) = (none, ⟨1, [some 5]⟩) :=
  ⟨by decide,
   ((VecMap.absence_and_remove_spec ⟨1, [some 5]⟩ 0 (by decide)).2.2 5
     (by decide)).1,
   ((VecMap.absence_and_remove_spec ⟨1, [some 5]⟩ 2 (by decide)).2.1
     (by decide)).2⟩

/-- C9: `entry(k)` yields the occupied variant iff `contains_key(&k)`, and on
an occupied entry (the map being fixed for the entry's lifetime, so the key
is still present) none of the occupied-entry operations ever reaches its
vacant branch: every `unwrap`ped option is `Some`; `insert` returns the
previous value and `remove` returns the key's value while removing the key. -/
theorem VecMap.entry_occupied_spec {V : Type} (m : VecMap V) (k : Nat) (v : V) :
    (m.entry k = EntryKind.occupied ↔ m.contains_key k = true)
    ∧ (m.contains_key k = true →
        (OccupiedEntry.get m k).isSome = true
        ∧ (OccupiedEntry.get_mut m k).isSome = true
        ∧ (OccupiedEntry.into_mut m k).isSome = true
        ∧ (OccupiedEntry.insert m k v).isSome = true
        ∧ (OccupiedEntry.remove m k).isSome = true
        ∧ (OccupiedEntry.remove_entry m k).isSome = true
        ∧ OccupiedEntry.insert m k v = m.get k
        ∧ OccupiedEntry.remove m k = m.get k
        ∧ ((m.remove k).2).contains_key k = false) := by
  constructor
  · unfold VecMap.entry
    cases hc : m.contains_key k with
    | true => simp
    | false => simp
  · intro h
    have hs : (m.get k).isSome = true := by
      rw [← VecMap.contains_eq_isSome]
      exact h
    have hins : OccupiedEntry.insert m k v = m.get k := VecMap.insert_fst m k v
    have hrem : OccupiedEntry.remove m k = m.get k := rfl
    refine ⟨hs, hs, hs, by rw [hins]; exact hs, by rw [hrem]; exact hs, ?_,
      hins, hrem, ?_⟩
    · show (((m.remove k).1).map (fun v => (k, v))).isSome = true
      rw [VecMap.remove_fst]
      cases hg : m.get k with
      | none => rw [hg] at hs; exact absurd hs (by simp)
      | some w => rfl
    · rw [VecMap.contains_eq_isSome, VecMap.get_remove]
      simp

/-- Witness for C9 at the one-entry map `{0 ↦ 5}` with the occupied key `0`. -/
theorem VecMap.entry_occupied_spec_witness :
    (⟨1, [some 5]⟩ : VecMap Nat).contains_key 0 = true
    ∧ OccupiedEntry.remove (⟨1, [some 5]⟩ : VecMap Nat) 0 = some 5 :=
  ⟨by decide,
   by rw [((VecMap.entry_occupied_spec ⟨1, [some 5]⟩ 0 7).2
       (by decide)).2.2.2.2.2.2.2.1]; decide⟩

/-- C10: `insert` is total and never accesses the backing vector out of
bounds: after `ensure_index(k)` the vector's length is at least `k + 1`, so
the explicit out-of-bounds branch of the unchecked slot access never fires —
`insertChecked` always succeeds and agrees with `insert`. -/
theorem VecMap.insert_in_bounds {V : Type} (m : VecMap V) (k : Nat) (v : V) :
    k + 1 ≤ ((m.ensure_index k).vec).length
    ∧ m.insertChecked k v = some (m.insert k v) := by
  constructor
  · rw [VecMap.ensure_length]
    omega
  · have h := VecMap.ensure_getElem_self m k
    simp only [VecMap.insertChecked, VecMap.insert, h,
      List.getD_eq_getElem?_getD, Option.getD_some]

/-- C6: the iterators yield exactly the live entries — `(k, v)` is yielded
iff `get(&k) = Some(v)`, holes are skipped — in strictly ascending key order;
`keys`, `values` and `into_iter` yield the corresponding projections of the
same sequence; and backward traversal via `next_back` yields the same
entries in strictly descending key order (the reverse sequence). -/
theorem VecMap.iteration_order_spec {V : Type} (m : VecMap V) :
    (m.iter).toList = liveEntries m.vec
    ∧ (m.intoIter).toList = liveEntries m.vec
    ∧ (m.keys).toList = (liveEntries m.vec).map Prod.fst
    ∧ (m.values).toList = (liveEntries m.vec).map Prod.snd
    ∧ (∀ k v, (k, v) ∈ (m.iter).toList ↔ m.get k = some v)
    ∧ List.Chain' (fun a b : Nat × V => a.1 < b.1) ((m.iter).toList)
    ∧ (m.iter).toBackList = ((m.iter).toList).reverse
    ∧ (m.intoIter).toBackList = ((m.intoIter).toList).reverse
    ∧ (m.keys).toBackList = ((m.keys).toList).reverse
    ∧ (m.values).toBackList = ((m.values).toList).reverse
    ∧ List.Chain' (fun a b : Nat × V => b.1 < a.1) ((m.iter).toBackList) := by
  have h1 : (m.iter).toList = liveEntries m.vec := iter_toList_eq_liveEntries m
  refine ⟨h1, intoIter_toList_eq_liveEntries m, ?_, ?_, ?_, ?_, rfl, rfl, ?_, ?_, ?_⟩
  · show ((m.iter).toList).map Prod.fst = _
    rw [h1]
  · show ((m.iter).toList).map Prod.snd = _
    rw [h1]
  · intro k v
    rw [h1]
    exact mem_liveEntries_iff_get m k v
  · rw [h1]
    exact liveFrom_chain m.vec 0
  · show ((m.iter).toBackList).map Prod.fst = (((m.iter).toList).map Prod.fst).reverse
    show (((m.iter).toList).reverse).map Prod.fst = _
    rw [List.map_reverse]
  · show ((m.iter).toBackList).map Prod.snd = (((m.iter).toList).map Prod.snd).reverse
    show (((m.iter).toList).reverse).map Prod.snd = _
    rw [List.map_reverse]
  · show List.Chain' _ (((m.iter).toList).reverse)
    rw [List.chain'_reverse]
    rw [h1]
    exact liveFrom_chain m.vec 0

/-- C8 counterexample: on the one-entry map `{0 ↦ 10}`, after consuming the
single element with `next`, the iterator's `size_hint` still reports
`(1, Some(1))` although it will yield 0 further elements — the stored count
is captured at construction and never decremented. -/
theorem Iter.size_hint_stale_after_next :
    ((VecMap.new.insert 0 (10 : Nat)).2).iter.next
      = some ((0, 10), ({ it := [], len := 1 } : Iter Nat))
    ∧ Iter.size_hint ({ it := [], len := 1 } : Iter Nat) = (1, some 1)
    ∧ (Iter.toList ({ it := [], len := 1 } : Iter Nat)).length = 0
    ∧ Iter.size_hint ({ it := [], len := 1 } : Iter Nat)
        ≠ ((Iter.toList ({ it := [], len := 1 } : Iter Nat)).length,
           some (Iter.toList ({ it := [], len := 1 } : Iter Nat)).length) := by
  decide

/-- C8 as amended: every iterator obtained fresh from a (well-formed) map
reports `size_hint() = (n, Some(n))` where `n` is exactly the number of
elements that iterator will yield; the hint is not updated as elements are
consumed (see the counterexample). -/
theorem VecMap.size_hint_exact_at_creation {V : Type} (m : VecMap V)
    (hwf : m.WF) :
    (m.iter).size_hint
        = (((m.iter).toList).length, some ((m.iter).toList).length)
    ∧ (m.intoIter).size_hint
        = (((m.intoIter).toList).length, some ((m.intoIter).toList).length)
    ∧ (m.iterMut).size_hint
        = (((m.iterMut).toList).length, some ((m.iterMut).toList).length)
    ∧ (m.keys).size_hint
        = (((m.keys).toList).length, some ((m.keys).toList).length)
    ∧ (m.values).size_hint
        = (((m.values).toList).length, some ((m.values).toList).length)
    ∧ (m.valuesMut).size_hint
        = (((m.valuesMut).toList).length, some ((m.valuesMut).toList).length) := by
  have h1 : ((m.iter).toList).length = m.len := by
    rw [iter_toList_eq_liveEntries m]
    exact hwf.symm
  have h2 : ((m.intoIter).toList).length = m.len := by
    rw [intoIter_toList_eq_liveEntries m]
    exact hwf.symm
  have h3 : ((m.iterMut).toList).length = m.len := by
    rw [iterMut_toList_eq_liveEntries m]
    exact hwf.symm
  have h4 : ((m.keys).toList).length = m.len := by
    show (((m.iter).toList).map Prod.fst).length = m.len
    rw [List.length_map]
    exact h1
  have h5 : ((m.values).toList).length = m.len := by
    show (((m.iter).toList).map Prod.snd).length = m.len
    rw [List.length_map]
    exact h1
  have h6 : ((m.valuesMut).toList).length = m.len := by
    show (((m.iterMut).toList).map Prod.snd).length = m.len
    rw [List.length_map]
    exact h3
  rw [h1, h2, h3, h4, h5, h6]
  exact ⟨rfl, rfl, rfl, rfl, rfl, rfl⟩

/-- Witness for the amended C8 at the well-formed one-entry map `{0 ↦ 5}`. -/
theorem VecMap.size_hint_exact_at_creation_witness :
    (⟨1, [some 5]⟩ : VecMap Nat).WF
    ∧ ((⟨1, [some 5]⟩ : VecMap Nat).iter).size_hint = (1, some 1) :=
  ⟨by decide,
   by rw [(VecMap.size_hint_exact_at_creation ⟨1, [some 5]⟩ (by decide)).1]
      decide⟩

/-! ## Retain lemmas and C5 -/

theorem retainGo_visits {V : Type} (f : Nat → V → Bool) :
    ∀ (vec : List (Option V)) (i : Nat),
      (retainGo f i vec).2.2 = liveFrom i vec := by
  intro vec
  induction vec with
  | nil => intro i; rfl
  | cons a rest ih =>
      intro i
      cases a with
      | none =>
          show (retainGo f (i + 1) rest).2.2 = liveFrom (i + 1) rest
          exact ih (i + 1)
      | some v =>
          show (if f i v then _ else _ : List (Option V) × Nat × List (Nat × V)).2.2
            = (i, v) :: liveFrom (i + 1) rest
          by_cases hf : f i v <;> simp only [hf, if_true, if_false] <;>
            exact congrArg _ (ih (i + 1))

theorem retainGo_live {V : Type} (f : Nat → V → Bool) :
    ∀ (vec : List (Option V)) (i : Nat),
      liveFrom i (retainGo f i vec).1
        = (liveFrom i vec).filter (fun p => f p.1 p.2) := by
  intro vec
  induction vec with
  | nil => intro i; rfl
  | cons a rest ih =>
      intro i
      cases a with
      | none =>
          show liveFrom i (none :: (retainGo f (i + 1) rest).1) = _
          show liveFrom (i + 1) (retainGo f (i + 1) rest).1 = _
          exact ih (i + 1)
      | some v =>
          by_cases hf : f i v
          · show liveFrom i (if f i v then _ else _ : List (Option V) × Nat × List (Nat × V)).1
              = List.filter _ ((i, v) :: liveFrom (i + 1) rest)
            rw [if_pos hf, List.filter_cons]
            simp only [hf, if_true]
            show (i, v) :: liveFrom (i + 1) (retainGo f (i + 1) rest).1 = _
            rw [ih (i + 1)]
          · show liveFrom i (if f i v then _ else _ : List (Option V) × Nat × List (Nat × V)).1
              = List.filter _ ((i, v) :: liveFrom (i + 1) rest)
            rw [if_neg hf, List.filter_cons]
            simp only [hf]
            show liveFrom (i + 1) (retainGo f (i + 1) rest).1
              = if false = true then _ else _
            rw [if_neg (by simp)]
            rw [ih (i + 1)]

theorem retainGo_count {V : Type} (f : Nat → V → Bool) :
    ∀ (vec : List (Option V)) (i : Nat),
      (liveFrom i vec).length
        = (retainGo f i vec).2.1
          + ((liveFrom i vec).filter (fun p => f p.1 p.2)).length := by
  intro vec
  induction vec with
  | nil => intro i; rfl
  | cons a rest ih =>
      intro i
      cases a with
      | none =>
          have h1 : liveFrom i ((none : Option V) :: rest) = liveFrom (i + 1) rest := rfl
          have h2 : (retainGo f i ((none : Option V) :: rest)).2.1
              = (retainGo f (i + 1) rest).2.1 := rfl
          rw [h1, h2]
          exact ih (i + 1)
      | some v =>
          have hcons : liveFrom i (some v :: rest) = (i, v) :: liveFrom (i + 1) rest := rfl
          rw [hcons, List.filter_cons]
          by_cases hf : f i v
          · have hr : (retainGo f i (some v :: rest)).2.1 = (retainGo f (i + 1) rest).2.1 := by
              show (if f i v then _ else _ : List (Option V) × Nat × List (Nat × V)).2.1 = _
              rw [if_pos hf]
            rw [hr, if_pos hf]
            simp only [List.length_cons]
            rw [ih (i + 1), Nat.add_assoc]
          · have hr : (retainGo f i (some v :: rest)).2.1 = (retainGo f (i + 1) rest).2.1 + 1 := by
              show (if f i v then _ else _ : List (Option V) × Nat × List (Nat × V)).2.1 = _
              rw [if_neg hf]
            rw [hr]
            simp only [hf]
            rw [if_neg (by simp)]
            simp only [List.length_cons]
            rw [ih (i + 1), Nat.add_right_comm]

/-- C5: `retain(f)` applies `f` to each live entry exactly once, in ascending
order (the visit list is exactly the live-entry list); it removes exactly the
entries failing `f` — afterwards the live entries are the original ones
filtered by `f`, in the same relative order, also as seen through `iter()` —
and `len()` equals the number of survivors; concretely, after inserting
`(1, 10)` and `(2, 11)` and retaining values `> 10`, `len() = 1` and
`into_iter()` collects to `[(2, 11)]`. -/
theorem VecMap.retain_spec {V : Type} (m : VecMap V) (f : Nat → V → Bool)
    (hwf : m.WF) :
    (retainGo f 0 m.vec).2.2 = liveEntries m.vec
    ∧ liveEntries ((m.retain f).vec)
        = (liveEntries m.vec).filter (fun p => f p.1 p.2)
    ∧ ((m.retain f).iter).toList
        = ((m.iter).toList).filter (fun p => f p.1 p.2)
    ∧ (m.retain f).len = ((liveEntries m.vec).filter (fun p => f p.1 p.2)).length
    ∧ (m.retain f).WF
    ∧ (scenarioRetain.retain (fun _ v => 10 < v)).len = 1
    ∧ ((scenarioRetain.retain (fun _ v => 10 < v)).intoIter).toList = [(2, 11)] := by
  have hlive : liveEntries ((m.retain f).vec)
      = (liveEntries m.vec).filter (fun p => f p.1 p.2) := by
    show liveFrom 0 (retainGo f 0 m.vec).1 = _
    exact retainGo_live f m.vec 0
  have hlen : (m.retain f).len
      = ((liveEntries m.vec).filter (fun p => f p.1 p.2)).length := by
    show m.len - (retainGo f 0 m.vec).2.1
      = ((liveFrom 0 m.vec).filter (fun p => f p.1 p.2)).length
    have hc := retainGo_count f m.vec 0
    have hwf2 : m.len = (liveFrom 0 m.vec).length := hwf
    omega
  refine ⟨retainGo_visits f m.vec 0, hlive, ?_, hlen, ?_, by decide, by decide⟩
  · rw [iter_toList_eq_liveEntries, iter_toList_eq_liveEntries]
    exact hlive
  · rw [VecMap.WF, hlen, hlive]

/-- Witness for C5 at the well-formed two-entry map `{1 ↦ 10, 2 ↦ 11}` and
the predicate `value > 10`. -/
theorem VecMap.retain_spec_witness :
    scenarioRetain.WF
    ∧ (scenarioRetain.retain (fun _ v => 10 < v)).len = 1 :=
  ⟨by decide,
   (VecMap.retain_spec scenarioRetain (fun _ v => 10 < v)
     (by decide)).2.2.2.2.2.1⟩

/-! ## Round trip (C7) -/

theorem mem_liveEntries_pair {V : Type} (m : VecMap V) (p : Nat × V) :
    p ∈ liveEntries m.vec ↔ m.get p.1 = some p.2 := by
  obtain ⟨k, v⟩ := p
  exact mem_liveEntries_iff_get m k v

theorem liveEntries_pairwise {V : Type} (vec : List (Option V)) :
    List.Pairwise (fun a b : Nat × V => a.1 < b.1) (liveEntries vec) := by
  haveI : IsTrans (Nat × V) (fun a b : Nat × V => a.1 < b.1) :=
    ⟨fun _ _ _ h1 h2 => lt_trans h1 h2⟩
  exact List.chain'_iff_pairwise.mp (liveFrom_chain vec 0)

theorem liveEntries_keys_nodup {V : Type} (vec : List (Option V)) :
    ((liveEntries vec).map Prod.fst).Nodup :=
  List.Pairwise.map Prod.fst (fun _ _ h => Nat.ne_of_lt h)
    (liveEntries_pairwise vec)

theorem liveEntries_nodup {V : Type} (vec : List (Option V)) :
    (liveEntries vec).Nodup :=
  (liveEntries_pairwise vec).imp (fun h => by
    intro hc
    rw [hc] at h
    exact lt_irrefl _ h)

theorem get_foldl_insert {V : Type} :
    ∀ (l : List (Nat × V)) (acc : VecMap V) (k : Nat),
      (l.foldl (fun a p => (a.insert p.1 p.2).2) acc).get k =
        (match l.reverse.find? (fun p => p.1 == k) with
         | some q => some q.2
         | none => acc.get k) := by
  intro l
  induction l with
  | nil => intro acc k; rfl
  | cons q t ih =>
      intro acc k
      rw [List.foldl_cons, ih ((acc.insert q.1 q.2).2) k, List.reverse_cons,
        List.find?_append_eq]
      cases ht : t.reverse.find? (fun p => p.1 == k) with
      | some p => rfl
      | none =>
          by_cases hq : q.1 = k
          · have hb : (q.1 == k) = true := beq_iff_eq.mpr hq
            simp only [List.find?, hb]
            rw [VecMap.get_insert]
            rw [if_pos hq.symm]
          · have hb : (q.1 == k) = false := by
              rw [beq_eq_false_iff_ne]
              exact hq
            simp only [List.find?, hb]
            rw [VecMap.get_insert]
            rw [if_neg (fun hc => hq hc.symm)]

theorem get_fromList {V : Type} (m : VecMap V) (l : List (Nat × V))
    (hp : List.Perm l (liveEntries m.vec)) :
    ∀ k, (VecMap.fromList l).get k = m.get k := by
  intro k
  have hlk : (l.map Prod.fst).Nodup := by
    rw [(hp.map Prod.fst).nodup_iff]
    exact liveEntries_keys_nodup m.vec
  rw [VecMap.fromList, get_foldl_insert]
  cases hg : m.get k with
  | some v =>
      have hmem : (k, v) ∈ l :=
        hp.mem_iff.mpr ((mem_liveEntries_iff_get m k v).mpr hg)
      have hmemrev : (k, v) ∈ l.reverse := List.mem_reverse.mpr hmem
      cases hfind : l.reverse.find? (fun p => p.1 == k) with
      | none =>
          exfalso
          have := List.find?_eq_none.mp hfind (k, v) hmemrev
          exact this (beq_iff_eq.mpr rfl)
      | some q =>
          have hb2 := @List.find?_some (Nat × V) (fun p => p.1 == k) q l.reverse hfind
          have hq1 : q.1 = k := beq_iff_eq.mp hb2
          have hqmem : q ∈ l :=
            List.mem_reverse.mp (List.mem_of_find?_eq_some hfind)
          have hqk : q = (k, v) :=
            List.inj_on_of_nodup_map hlk hqmem hmem (by rw [hq1])
          rw [hqk]
  | none =>
      cases hfind : l.reverse.find? (fun p => p.1 == k) with
      | none =>
          show VecMap.get (VecMap.with_capacity l.length) k = none
          rfl
      | some q =>
          exfalso
          have hb2 := @List.find?_some (Nat × V) (fun p => p.1 == k) q l.reverse hfind
          have hq1 : q.1 = k := beq_iff_eq.mp hb2
          have hqmem : q ∈ l :=
            List.mem_reverse.mp (List.mem_of_find?_eq_some hfind)
          have : m.get q.1 = some q.2 :=
            (mem_liveEntries_pair m q).mp (hp.mem_iff.mp hqmem)
          rw [hq1, hg] at this
          exact Option.noConfusion this

theorem liveEntries_eq_of_get_eq {V : Type} [DecidableEq V] (a b : VecMap V)
    (h : ∀ k, a.get k = b.get k) : liveEntries a.vec = liveEntries b.vec := by
  haveI : IsAntisymm (Nat × V) (fun p q : Nat × V => p.1 < q.1) :=
    ⟨fun _ _ h1 h2 => absurd h2 (lt_asymm h1)⟩
  have hmem : ∀ p : Nat × V, p ∈ liveEntries a.vec ↔ p ∈ liveEntries b.vec := by
    intro p
    rw [mem_liveEntries_pair, mem_liveEntries_pair, h p.1]
  have hfin : (liveEntries a.vec).toFinset = (liveEntries b.vec).toFinset := by
    apply Finset.ext
    intro p
    rw [List.mem_toFinset, List.mem_toFinset]
    exact hmem p
  have hperm : List.Perm (liveEntries a.vec) (liveEntries b.vec) :=
    List.perm_of_nodup_nodup_toFinset_eq (liveEntries_nodup a.vec)
      (liveEntries_nodup b.vec) hfin
  exact List.eq_of_perm_of_sorted hperm (liveEntries_pairwise a.vec)
    (liveEntries_pairwise b.vec)

theorem eqv_iff_liveEntries {V : Type} (a b : VecMap V) :
    VecMap.eqv a b ↔ liveEntries a.vec = liveEntries b.vec := by
  rw [VecMap.eqv, liveSlots_eq, liveSlots_eq]
  constructor
  · intro h
    have hinj : Function.Injective (fun p : Nat × V => (p.1, some p.2)) := by
      intro p q hpq
      obtain ⟨p1, p2⟩ := p
      obtain ⟨q1, q2⟩ := q
      simp only [Prod.mk.injEq, Option.some.injEq] at hpq
      rw [Prod.mk.injEq]
      exact hpq
    exact List.map_injective_iff.mpr hinj h
  · intro h
    rw [h]

/-- C7: rebuilding a map by inserting every `(key, value)` pair produced by
`into_iter()`, in any order (any permutation of the yielded sequence), gives
a map equal to the original under the `PartialEq` contract; and that contract
holds between two maps iff their live-entry sequences are element-wise equal
(the backing vectors themselves need not match). -/
theorem VecMap.round_trip_spec {V : Type} [DecidableEq V] (m : VecMap V)
    (l : List (Nat × V)) (hp : List.Perm l ((m.intoIter).toList)) :
    VecMap.eqv (VecMap.fromList l) m
    ∧ (∀ a b : VecMap V, VecMap.eqv a b ↔ liveEntries a.vec = liveEntries b.vec) := by
  have hp2 : List.Perm l (liveEntries m.vec) := by
    rw [intoIter_toList_eq_liveEntries] at hp
    exact hp
  refine ⟨?_, eqv_iff_liveEntries⟩
  exact (eqv_iff_liveEntries (VecMap.fromList l) m).mpr
    (liveEntries_eq_of_get_eq (VecMap.fromList l) m (get_fromList m l hp2))

/-- Witness for C7: the map `{0 ↦ 1, 2 ↦ 3}` rebuilt from its entries in the
reversed order `[(2, 3), (0, 1)]` compares equal to the original. -/
theorem VecMap.round_trip_spec_witness :
    List.Perm [((2 : Nat), (3 : Nat)), (0, 1)]
      (((⟨2, [some 1, none, some 3]⟩ : VecMap Nat).intoIter).toList)
    ∧ VecMap.eqv (VecMap.fromList [((2 : Nat), (3 : Nat)), (0, 1)])
        (⟨2, [some 1, none, some 3]⟩ : VecMap Nat) :=
  ⟨by decide,
   (VecMap.round_trip_spec (⟨2, [some 1, none, some 3]⟩ : VecMap Nat)
     [(2, 3), (0, 1)] (by decide)).1⟩
